import Mathlib

/-!
# Verification of the brainfreeze steganographic codec (`src/img.rs`)

A shallow embedding of the pixel codec from `src/img.rs` together with the
token vocabulary from `src/lexer.rs`, and proofs about the embedded code.

Modelling conventions:
* An 8-bit channel value is a `Nat`; where the Rust code relies on `u8`
  overflow semantics the wrap is written out explicitly (`% 256`).
  Two's-complement wrapping (the semantics of release builds) is used for
  the one subtraction that can underflow, `distance - MINIMUM_PIXEL_DISTANCE`
  in `distance_to_kind`.
* `u32` position arithmetic in `read` uses the explicit wrapping helper
  `u32_sub`; `kind_count`'s `as u32` cast is the explicit `% 2^32`.
* File I/O, the PNG decoding and the `.png` extension checks are outside
  the pixel-buffer transformation and are not modelled: `read_pixels` is
  the token-extraction scan of `read` and `write_pixels` is the
  pixel-buffer transformation of `write`.
-/

/-- One RGBA pixel: four 8-bit channels (`image::Rgba<u8>`). -/
structure Pixel where
  r : Nat
  g : Nat
  b : Nat
  a : Nat
deriving Repr, DecidableEq

/-- `TokenKind` from `src/lexer.rs`: four count-bearing kinds and five
structural kinds. -/
inductive TokenKind where
  | right : Nat → TokenKind
  | left : Nat → TokenKind
  | increment : Nat → TokenKind
  | decrement : Nat → TokenKind
  | loopStart : TokenKind
  | loopEnd : TokenKind
  | putChar : TokenKind
  | readChar : TokenKind
  | eof : TokenKind
deriving Repr, DecidableEq

/-- `Position` from `src/lexer.rs`: `(line_number, offset)`. -/
structure Position where
  line : Nat
  offset : Nat
deriving Repr, DecidableEq

/-- `Token` from `src/lexer.rs`. -/
structure Token where
  kind : TokenKind
  position : Position
deriving Repr, DecidableEq

def MINIMUM_PIXEL_DISTANCE : Nat := 10

def MAXIMUM_PIXEL_DISTANCE : Nat := 18

/-- `u8::abs_diff`. -/
def abs_diff (x y : Nat) : Nat := if x ≤ y then y - x else x - y

/-- Wrapping `u32` subtraction (release semantics of `a - b` on `u32`),
used only in the decoder's position bookkeeping. -/
def u32_sub (a b : Nat) : Nat :=
  (a % 4294967296 + (4294967296 - b % 4294967296)) % 4294967296

/-- `pixel_distance` from `src/img.rs` (lines 55-69): the distance the pair
`(a, b)` carries, if any. -/
def pixel_distance (a b : Pixel) : Option Nat :=
  let diff := abs_diff a.r b.r
  if diff < MINIMUM_PIXEL_DISTANCE ∨ MAXIMUM_PIXEL_DISTANCE < diff then
    none
  else if abs_diff a.g b.g ≠ diff ∨ abs_diff a.b b.b ≠ diff ∨ abs_diff a.a b.a ≠ diff then
    none
  else
    some diff

/-- `distance_to_kind` from `src/img.rs` (lines 71-84).  The scrutinee
`(distance + 246) % 256` is the `u8` computation
`distance - MINIMUM_PIXEL_DISTANCE` under two's-complement wrapping
(246 = 256 - 10); for `distance ≥ 10` it is plain `distance - 10`. -/
def distance_to_kind (distance : Nat) : Option TokenKind :=
  match (distance + 246) % 256 with
  | 0 => some (TokenKind.increment 0)
  | 1 => some (TokenKind.decrement 0)
  | 2 => some (TokenKind.right 0)
  | 3 => some (TokenKind.left 0)
  | 4 => some TokenKind.loopStart
  | 5 => some TokenKind.loopEnd
  | 6 => some TokenKind.putChar
  | 7 => some TokenKind.readChar
  | 8 => some TokenKind.eof
  | _ => none

/-- `kind_to_distance` from `src/img.rs` (lines 86-99). -/
def kind_to_distance (kind : TokenKind) : Nat :=
  MINIMUM_PIXEL_DISTANCE +
    match kind with
    | TokenKind.increment _ => 0
    | TokenKind.decrement _ => 1
    | TokenKind.right _ => 2
    | TokenKind.left _ => 3
    | TokenKind.loopStart => 4
    | TokenKind.loopEnd => 5
    | TokenKind.putChar => 6
    | TokenKind.readChar => 7
    | TokenKind.eof => 8

/-- `kind_count` from `src/img.rs` (lines 101-110); the `% 2^32` is the
`*count as u32` cast. -/
def kind_count (kind : TokenKind) : Nat :=
  match kind with
  | TokenKind.increment count => count % 4294967296
  | TokenKind.decrement count => count % 4294967296
  | TokenKind.right count => count % 4294967296
  | TokenKind.left count => count % 4294967296
  | _ => 1

/-- `increase_kind` from `src/img.rs` (lines 112-121). -/
def increase_kind (kind : TokenKind) (count : Nat) : TokenKind :=
  match kind with
  | TokenKind.increment c => TokenKind.increment (c + count)
  | TokenKind.decrement c => TokenKind.decrement (c + count)
  | TokenKind.right c => TokenKind.right (c + count)
  | TokenKind.left c => TokenKind.left (c + count)
  | other => other

/-- The "push the stacking token" step of `read` (`src/img.rs` lines
156-161 and 199-205): `Token::new(kind, Position::new(line, column - count - 1))`. -/
def flush_stack (st : Option TokenKind) (line column : Nat) : List Token :=
  match st with
  | none => []
  | some kind => [⟨kind, ⟨line, u32_sub column (kind_count kind + 1)⟩⟩]

/-- Row wrap of `read` (`src/img.rs` lines 192-195): the line after the
`if column == width` check. -/
def next_line (width line column : Nat) : Nat :=
  if column = width then line + 1 else line

/-- Row wrap of `read` (`src/img.rs` lines 192-195): the column after the
`if column == width` check. -/
def next_col (width column : Nat) : Nat :=
  if column = width then 0 else column

/-- The `while let Some(pixel) = pixels.next()` scan of `read`
(`src/img.rs` lines 143-205), including the trailing stacking-token flush.
The `none` branch of the inner `distance_to_kind` lookup models the
`.expect("corresponding kind")`; it is unreachable because `pixel_distance`
only returns distances in `[10, 18]` (see `distance_to_kind_of_band`). -/
def readLoop (width : Nat) : List Pixel → Nat → Nat → Option TokenKind → List Token
  | [], line, column, st => flush_stack st line column
  | [_], line, column, st => flush_stack st line (column + 1)
  | pixel :: next :: rest, line, column, st =>
    match pixel_distance pixel next with
    | some distance =>
      match distance_to_kind distance with
      | none => []
      | some kind =>
        let flushed := flush_stack st line (column + 1)
        match kind with
        | TokenKind.increment _ | TokenKind.decrement _
        | TokenKind.right _ | TokenKind.left _ =>
          flushed ++ readLoop width (next :: rest)
            (next_line width line (column + 1)) (next_col width (column + 1)) (some kind)
        | TokenKind.eof =>
          flushed ++ [⟨TokenKind.eof, ⟨line, column + 1⟩⟩]
        | _ =>
          flushed ++ ⟨kind, ⟨line, column + 1⟩⟩ ::
            readLoop width (next :: rest)
              (next_line width line (column + 1)) (next_col width (column + 1)) none
    | none =>
      readLoop width (next :: rest)
        (next_line width line (column + 1)) (next_col width (column + 1))
        (Option.map (fun kind => increase_kind kind 1) st)

/-- The pixel-scanning part of `read` (`src/img.rs` lines 123-208), file
I/O aside: decode a row-major pixel sequence into a token stream. -/
def read_pixels (width : Nat) (pixels : List Pixel) : List Token :=
  readLoop width pixels 0 0 none

/-- One channel of `encoded_pixel` (`src/img.rs` lines 211-239): the
`saturating_add == u8::MAX` test, then subtract or add. -/
def encode_channel (value distance : Nat) : Nat :=
  if min (value + distance) 255 = 255 then value - distance else value + distance

/-- `encoded_pixel` from `src/img.rs` (lines 211-239). -/
def encoded_pixel (distance : Nat) (values : Pixel) : Pixel :=
  ⟨encode_channel values.r distance, encode_channel values.g distance,
   encode_channel values.b distance, encode_channel values.a distance⟩

/-- The filler-pixel perturbation of `write` (`src/img.rs` lines 290-294):
`next_pixel.0[0] = if r > u8::MAX / 2 { r - 1 } else { r + 1 }`. -/
def perturb (q : Pixel) : Pixel :=
  if q.r > 127 then { q with r := q.r - 1 } else { q with r := q.r + 1 }

/-- The `for _ in 0..amount` filler loop of `write` (`src/img.rs` lines
279-297): returns the mutated buffer and the advanced cursor `i`. -/
def fillerLoop : Nat → List Pixel → Nat → List Pixel × Nat
  | 0, pixels, i => (pixels, i)
  | amount + 1, pixels, i =>
    if pixels.length ≤ i + 1 then (pixels, i)
    else
      match pixels[i + 1]?, pixels[i + 2]? with
      | some pixel, some next =>
        let pixels :=
          if (pixel_distance pixel next).isSome then pixels.set (i + 2) (perturb next)
          else pixels
        fillerLoop amount pixels (i + 1)
      | _, _ => (pixels, i)

/-- The `while i < pixels.len()` loop of `write` (`src/img.rs` lines
257-310).  The source breaks out of the loop when `pixels.get_mut(i+1)` is
`None` before drawing the next token; reordering those two exhaustion
checks does not change the resulting buffer, so the token list is matched
first to give structural recursion. -/
def writeLoop : List Token → List Pixel → Nat → List Pixel
  | [], pixels, _ => pixels
  | token :: rest, pixels, i =>
    if h : i < pixels.length then
      if i + 1 < pixels.length then
        let pixel := pixels.get ⟨i, h⟩
        match token.kind with
        | TokenKind.increment amount | TokenKind.decrement amount
        | TokenKind.left amount | TokenKind.right amount =>
          let distance := kind_to_distance token.kind
          let pixels := pixels.set (i + 1) (encoded_pixel distance pixel)
          let next := fillerLoop amount pixels i
          writeLoop rest next.1 (next.2 + 1)
        | _ =>
          let distance := kind_to_distance token.kind
          let pixels := pixels.set (i + 1) (encoded_pixel distance pixel)
          writeLoop rest pixels (i + 1)
      else pixels
    else pixels

/-- The pixel-buffer transformation of `write` (`src/img.rs` lines
241-318), file I/O aside: encode a token stream into a pixel buffer. -/
def write_pixels (tokens : List Token) (pixels : List Pixel) : List Pixel :=
  writeLoop tokens pixels 0

/-- The four count-bearing ("stacking") kinds. -/
def is_stackable : TokenKind → Bool
  | TokenKind.increment _ | TokenKind.decrement _
  | TokenKind.right _ | TokenKind.left _ => true
  | _ => false

/-- The repeat-count payload of a kind (0 for structural kinds). -/
def count_of : TokenKind → Nat
  | TokenKind.increment c | TokenKind.decrement c
  | TokenKind.right c | TokenKind.left c => c
  | _ => 0

/-- Zero out the repeat-count payload. -/
def strip_count : TokenKind → TokenKind
  | TokenKind.increment _ => TokenKind.increment 0
  | TokenKind.decrement _ => TokenKind.decrement 0
  | TokenKind.right _ => TokenKind.right 0
  | TokenKind.left _ => TokenKind.left 0
  | other => other

/-- The kinds an open-run state contributes when flushed. -/
def flush_kinds : Option TokenKind → List TokenKind
  | none => []
  | some kind => [kind]

/-- No adjacent pixel pair of the list carries a signature. -/
def signature_free : List Pixel → Bool
  | p :: q :: rest => (pixel_distance p q).isNone && signature_free (q :: rest)
  | _ => true

/-- The token stream is nonempty, ends with `EOF`, and contains no other
`EOF`. -/
def eof_terminated : List Token → Bool
  | [] => false
  | [t] => t.kind == TokenKind.eof
  | t :: rest => !(t.kind == TokenKind.eof) && eof_terminated rest

/-- Number of pixels past the cursor consumed by one token during encode:
its repeat count plus the signature pixel. -/
def token_width (t : Token) : Nat := count_of t.kind + 1

/-- Number of pixels past the cursor consumed by a token stream. -/
def list_span (tokens : List Token) : Nat := (tokens.map token_width).sum

/-! ## Basic facts about the distance codec -/

lemma pixel_distance_some_iff (a b : Pixel) (d : Nat) :
    pixel_distance a b = some d ↔
      (abs_diff a.r b.r = d ∧ abs_diff a.g b.g = d ∧ abs_diff a.b b.b = d ∧
       abs_diff a.a b.a = d ∧ 10 ≤ d ∧ d ≤ 18) := by
  simp only [pixel_distance, MINIMUM_PIXEL_DISTANCE, MAXIMUM_PIXEL_DISTANCE]
  split_ifs with h1 h2 <;>
    simp only [Option.some.injEq, reduceCtorEq, false_iff, true_iff] <;> omega

lemma pixel_distance_none_iff (a b : Pixel) :
    pixel_distance a b = none ↔
      ¬ (abs_diff a.g b.g = abs_diff a.r b.r ∧ abs_diff a.b b.b = abs_diff a.r b.r ∧
         abs_diff a.a b.a = abs_diff a.r b.r ∧
         10 ≤ abs_diff a.r b.r ∧ abs_diff a.r b.r ≤ 18) := by
  simp only [pixel_distance, MINIMUM_PIXEL_DISTANCE, MAXIMUM_PIXEL_DISTANCE]
  split_ifs with h1 h2 <;>
    simp only [reduceCtorEq, false_iff, true_iff, not_and, not_le] <;> omega

lemma pixel_distance_band {a b : Pixel} {d : Nat} (h : pixel_distance a b = some d) :
    10 ≤ d ∧ d ≤ 18 := by
  have := (pixel_distance_some_iff a b d).1 h
  exact ⟨this.2.2.2.2.1, this.2.2.2.2.2⟩

lemma kind_to_distance_band (k : TokenKind) :
    10 ≤ kind_to_distance k ∧ kind_to_distance k ≤ 18 := by
  cases k <;> simp [kind_to_distance, MINIMUM_PIXEL_DISTANCE]

lemma distance_to_kind_strip (k : TokenKind) :
    distance_to_kind (kind_to_distance k) = some (strip_count k) := by
  cases k <;>
    first
    | rfl
    | simp [distance_to_kind, kind_to_distance, strip_count, MINIMUM_PIXEL_DISTANCE]

lemma kind_to_distance_inv {d : Nat} (h1 : 10 ≤ d) (h2 : d ≤ 18) :
    Option.map kind_to_distance (distance_to_kind d) = some d := by
  interval_cases d <;> rfl

lemma encode_channel_dist (v d : Nat) (hd : d ≤ 18) :
    abs_diff v (encode_channel v d) = d := by
  simp only [encode_channel, abs_diff, Nat.min_def]
  split_ifs <;> omega

lemma pixel_distance_encoded (p : Pixel) (d : Nat) (h1 : 10 ≤ d) (h2 : d ≤ 18) :
    pixel_distance p (encoded_pixel d p) = some d := by
  rw [pixel_distance_some_iff]
  refine ⟨?_, ?_, ?_, ?_, h1, h2⟩ <;>
    exact encode_channel_dist _ d h2

/-- C2: `pixel_distance(a, b)` returns `Some(d)` iff all four per-channel
absolute differences between `a` and `b` equal one common value `d` with
`10 ≤ d ≤ 18`; it returns `None` whenever the four deltas disagree or the
common delta falls outside `[10, 18]`.  (The Lean embedding is a pure
function, so absence of side effects is immediate.) -/
theorem pixel_distance_correct (a b : Pixel) :
    (∀ d, pixel_distance a b = some d ↔
      (abs_diff a.r b.r = d ∧ abs_diff a.g b.g = d ∧ abs_diff a.b b.b = d ∧
       abs_diff a.a b.a = d ∧ 10 ≤ d ∧ d ≤ 18)) ∧
    (pixel_distance a b = none ↔
      ¬ (abs_diff a.g b.g = abs_diff a.r b.r ∧ abs_diff a.b b.b = abs_diff a.r b.r ∧
         abs_diff a.a b.a = abs_diff a.r b.r ∧
         10 ≤ abs_diff a.r b.r ∧ abs_diff a.r b.r ≤ 18)) :=
  ⟨fun d => pixel_distance_some_iff a b d, pixel_distance_none_iff a b⟩

/-- Closed instance of `pixel_distance_correct`: the spec's own examples. -/
theorem pixel_distance_correct_witness :
    pixel_distance ⟨10, 10, 10, 10⟩ ⟨28, 28, 28, 28⟩ = some 18 ∧
    pixel_distance ⟨10, 10, 10, 10⟩ ⟨15, 20, 15, 15⟩ = none :=
  ⟨((pixel_distance_correct ⟨10, 10, 10, 10⟩ ⟨28, 28, 28, 28⟩).1 18).2 (by decide),
   (pixel_distance_correct ⟨10, 10, 10, 10⟩ ⟨15, 20, 15, 15⟩).2.2 (by decide)⟩

/-- C3: for each of the 9 token kinds `k`,
`distance_to_kind (kind_to_distance k)` returns `k` with its repeat-count
payload zeroed, and for every `d` in `[10, 18]`, `kind_to_distance` applied
to the kind returned by `distance_to_kind d` gives back `d`. -/
theorem distance_kind_bijection :
    (∀ k : TokenKind, distance_to_kind (kind_to_distance k) = some (strip_count k)) ∧
    (∀ d : Nat, 10 ≤ d → d ≤ 18 →
      Option.map kind_to_distance (distance_to_kind d) = some d) :=
  ⟨distance_to_kind_strip, fun _ h1 h2 => kind_to_distance_inv h1 h2⟩

/-- Closed instance of `distance_kind_bijection`. -/
theorem distance_kind_bijection_witness :
    distance_to_kind (kind_to_distance (TokenKind.increment 3)) = some (TokenKind.increment 0) ∧
    Option.map kind_to_distance (distance_to_kind 14) = some 14 :=
  ⟨distance_kind_bijection.1 (TokenKind.increment 3),
   distance_kind_bijection.2 14 (by decide) (by decide)⟩

/-- C4: for an 8-bit channel value `v` and a distance `d` in `[10, 18]`,
the per-channel encoding returns `v - d` exactly when the saturating add of
`v` and `d` is 255 (that is, when `255 ≤ v + d`), and `v + d` otherwise;
either way the result differs from `v` by exactly `d`, without underflow
(`d ≤ v` in the subtracting branch) and without clipping (the result stays
within `[0, 255]`), and since the rule is applied identically to all four
channels the pair `(p, encoded_pixel d p)` carries a signature of exactly
`d`. -/
theorem encoded_pixel_correct (d : Nat) (hd1 : 10 ≤ d) (hd2 : d ≤ 18) :
    (∀ v : Nat, v ≤ 255 →
      (255 ≤ v + d → encode_channel v d = v - d ∧ d ≤ v ∧ v - d ≤ 255) ∧
      (v + d < 255 → encode_channel v d = v + d ∧ v + d ≤ 255) ∧
      abs_diff v (encode_channel v d) = d) ∧
    (∀ p : Pixel, pixel_distance p (encoded_pixel d p) = some d) := by
  constructor
  · intro v hv
    refine ⟨?_, ?_, encode_channel_dist v d hd2⟩ <;>
      intro h <;>
      simp only [encode_channel, Nat.min_def] <;>
      split_ifs <;> omega
  · intro p
    exact pixel_distance_encoded p d hd1 hd2

/-- Closed instance of `encoded_pixel_correct` at `d = 10`, `v = 250`
(saturating branch) and the uniform pixel `(100, 100, 100, 255)`. -/
theorem encoded_pixel_correct_witness :
    encode_channel 250 10 = 240 ∧
    pixel_distance ⟨100, 100, 100, 255⟩ (encoded_pixel 10 ⟨100, 100, 100, 255⟩) = some 10 := by
  have h := encoded_pixel_correct 10 (by decide) (by decide)
  exact ⟨(((h.1 250 (by decide)).1) (by decide)).1, h.2 ⟨100, 100, 100, 255⟩⟩

/-- C8: `distance_to_kind` is a total lookup over every `u8` input: for
`d` in `[10, 18]` it returns `some` of the corresponding zero-count kind
template (whose `kind_to_distance` is `d` again), and for every other `u8`
value — including every `d` below 10, where the `u8` subtraction wraps —
it returns `none`.  (The underflowing subtraction is modelled with release
two's-complement wrapping; the wrapped value lands in the `_ => None`
arm.) -/
theorem distance_to_kind_total (d : Nat) (hd : d ≤ 255) :
    (10 ≤ d ∧ d ≤ 18 →
      (distance_to_kind d).isSome = true ∧
      Option.map kind_to_distance (distance_to_kind d) = some d ∧
      Option.map strip_count (distance_to_kind d) = distance_to_kind d) ∧
    ((d < 10 ∨ 18 < d) → distance_to_kind d = none) := by
  constructor
  · rintro ⟨h1, h2⟩
    refine ⟨?_, kind_to_distance_inv h1 h2, ?_⟩ <;> interval_cases d <;> rfl
  · intro h
    have h9 : ∃ t, (d + 246) % 256 = t + 9 := by
      rcases h with h | h
      · exact ⟨d + 237, by omega⟩
      · exact ⟨d - 19, by omega⟩
    obtain ⟨t, ht⟩ := h9
    unfold distance_to_kind
    rw [ht]
    rfl

/-- Closed instance of `distance_to_kind_total`: below-band, above-band and
in-band inputs. -/
theorem distance_to_kind_total_witness :
    distance_to_kind 9 = none ∧ distance_to_kind 200 = none ∧
    (distance_to_kind 14).isSome = true :=
  ⟨(distance_to_kind_total 9 (by decide)).2 (by decide),
   (distance_to_kind_total 200 (by decide)).2 (by decide),
   ((distance_to_kind_total 14 (by decide)).1 (by decide)).1⟩

/-! ## Small facts about kinds and open-run states -/

lemma flush_stack_kinds (st : Option TokenKind) (l c : Nat) :
    (flush_stack st l c).map Token.kind = flush_kinds st := by
  cases st <;> rfl

lemma strip_count_count (k : TokenKind) : count_of (strip_count k) = 0 := by
  cases k <;> rfl

lemma increase_strip (k : TokenKind) (hs : is_stackable k = true) :
    increase_kind (strip_count k) (count_of k) = k := by
  cases k <;> simp_all [is_stackable, strip_count, increase_kind, count_of]

lemma increase_increase (k : TokenKind) (a b : Nat) :
    increase_kind (increase_kind k a) b = increase_kind k (a + b) := by
  cases k <;> simp [increase_kind, Nat.add_assoc]

lemma increase_zero (k : TokenKind) : increase_kind k 0 = k := by
  cases k <;> simp [increase_kind]

lemma distance_to_kind_shape (d : Nat) :
    distance_to_kind d = none ∨
      ∃ k, distance_to_kind d = some k ∧ strip_count k = k := by
  unfold distance_to_kind
  by_cases h : (d + 246) % 256 ≤ 8
  · generalize hm : (d + 246) % 256 = m at h ⊢
    interval_cases m <;> exact Or.inr ⟨_, rfl, rfl⟩
  · obtain ⟨t, ht⟩ : ∃ t, (d + 246) % 256 = t + 9 := ⟨(d + 246) % 256 - 9, by omega⟩
    rw [ht]
    exact Or.inl rfl

lemma distance_to_kind_strip_eq {d : Nat} {k : TokenKind}
    (h : distance_to_kind d = some k) : strip_count k = k := by
  rcases distance_to_kind_shape d with h0 | ⟨k', hk', hs⟩
  · rw [h0] at h; cases h
  · rw [hk'] at h; cases h; exact hs

lemma distance_to_kind_count_zero {d : Nat} {k : TokenKind}
    (h : distance_to_kind d = some k) : count_of k = 0 := by
  rw [← distance_to_kind_strip_eq h]
  exact strip_count_count k

/-! ## Step lemmas for the decoder loop -/

lemma readLoop_none_step (width l c : Nat) (st : Option TokenKind)
    (p next : Pixel) (rest : List Pixel) (h : pixel_distance p next = none) :
    readLoop width (p :: next :: rest) l c st =
      readLoop width (next :: rest) (next_line width l (c + 1)) (next_col width (c + 1))
        (Option.map (fun k => increase_kind k 1) st) := by
  simp [readLoop, h]

lemma readLoop_sig_stack_step (width l c : Nat) (st : Option TokenKind)
    (p next : Pixel) (rest : List Pixel) (d : Nat) (kind : TokenKind)
    (h : pixel_distance p next = some d) (hk : distance_to_kind d = some kind)
    (hs : is_stackable kind = true) :
    readLoop width (p :: next :: rest) l c st =
      flush_stack st l (c + 1) ++
        readLoop width (next :: rest) (next_line width l (c + 1)) (next_col width (c + 1))
          (some kind) := by
  cases kind <;> simp_all [readLoop, is_stackable]

lemma readLoop_sig_struct_step (width l c : Nat) (st : Option TokenKind)
    (p next : Pixel) (rest : List Pixel) (d : Nat) (kind : TokenKind)
    (h : pixel_distance p next = some d) (hk : distance_to_kind d = some kind)
    (hs : is_stackable kind = false) (hne : kind ≠ TokenKind.eof) :
    readLoop width (p :: next :: rest) l c st =
      flush_stack st l (c + 1) ++ ⟨kind, ⟨l, c + 1⟩⟩ ::
        readLoop width (next :: rest) (next_line width l (c + 1)) (next_col width (c + 1))
          none := by
  cases kind <;> simp_all [readLoop, is_stackable]

lemma readLoop_sig_eof_step (width l c : Nat) (st : Option TokenKind)
    (p next : Pixel) (rest : List Pixel) (d : Nat)
    (h : pixel_distance p next = some d) (hk : distance_to_kind d = some TokenKind.eof) :
    readLoop width (p :: next :: rest) l c st =
      flush_stack st l (c + 1) ++ [⟨TokenKind.eof, ⟨l, c + 1⟩⟩] := by
  simp [readLoop, h, hk]

lemma is_stackable_increase (k : TokenKind) (n : Nat) :
    is_stackable (increase_kind k n) = is_stackable k := by
  cases k <;> rfl

lemma is_stackable_ne_eof {k : TokenKind} (h : is_stackable k = true) :
    k ≠ TokenKind.eof := by
  cases k <;> simp_all [is_stackable]

lemma mem_dropLast_append {α : Type} {A B : List α} {x : α}
    (h : x ∈ (A ++ B).dropLast) : x ∈ A ∨ x ∈ B.dropLast := by
  cases B with
  | nil =>
    rw [List.append_nil] at h
    exact Or.inl (List.dropLast_subset A h)
  | cons b bs =>
    rw [List.dropLast_append_cons] at h
    exact List.mem_append.1 h

/-- Every token of the decoder output except possibly the last one has a
non-`EOF` kind, as long as the open-run state only ever holds stacking
kinds (which `read` guarantees, starting from `None`). -/
lemma readLoop_eof_not_in_dropLast (pixels : List Pixel) :
    ∀ (width l c : Nat) (st : Option TokenKind),
      (∀ k, st = some k → is_stackable k = true) →
      ∀ t ∈ (readLoop width pixels l c st).dropLast, t.kind ≠ TokenKind.eof := by
  induction pixels with
  | nil =>
    intro width l c st hst t ht
    cases st with
    | none => simp [readLoop, flush_stack] at ht
    | some k => simp [readLoop, flush_stack] at ht
  | cons p rest ih =>
    intro width l c st hst t ht
    cases rest with
    | nil =>
      cases st with
      | none => simp [readLoop, flush_stack] at ht
      | some k => simp [readLoop, flush_stack] at ht
    | cons next rest2 =>
      cases hpd : pixel_distance p next with
      | none =>
        rw [readLoop_none_step width l c st p next rest2 hpd] at ht
        refine ih width _ _ _ ?_ t ht
        intro k hk
        cases st with
        | none => simp at hk
        | some k0 =>
          simp only [Option.map_some'] at hk
          cases hk
          rw [is_stackable_increase]
          exact hst k0 rfl
      | some d =>
        cases hdk : distance_to_kind d with
        | none =>
          simp [readLoop, hpd, hdk] at ht
        | some kind =>
          by_cases hs : is_stackable kind = true
          · rw [readLoop_sig_stack_step width l c st p next rest2 d kind hpd hdk hs] at ht
            rcases mem_dropLast_append ht with h1 | h1
            · cases st with
              | none => simp [flush_stack] at h1
              | some k0 =>
                simp only [flush_stack, List.mem_singleton] at h1
                subst h1
                exact is_stackable_ne_eof (hst k0 rfl)
            · exact ih width _ _ _ (fun k hk => by cases hk; exact hs) t h1
          · by_cases heof : kind = TokenKind.eof
            · subst heof
              rw [readLoop_sig_eof_step width l c st p next rest2 d hpd hdk] at ht
              rw [List.dropLast_concat] at ht
              cases st with
              | none => simp [flush_stack] at ht
              | some k0 =>
                simp only [flush_stack, List.mem_singleton] at ht
                subst ht
                exact is_stackable_ne_eof (hst k0 rfl)
            · rw [readLoop_sig_struct_step width l c st p next rest2 d kind hpd hdk
                (by simp_all) heof] at ht
              rcases mem_dropLast_append (A := flush_stack st l (c + 1)) ht with h1 | h1
              · cases st with
                | none => simp [flush_stack] at h1
                | some k0 =>
                  simp only [flush_stack, List.mem_singleton] at h1
                  subst h1
                  exact is_stackable_ne_eof (hst k0 rfl)
              · cases rl : readLoop width (next :: rest2)
                    (next_line width l (c + 1)) (next_col width (c + 1)) none with
                | nil =>
                  rw [rl] at h1
                  simp at h1
                | cons y ys =>
                  rw [rl] at h1
                  rw [List.dropLast_cons₂] at h1
                  rcases List.mem_cons.1 h1 with h2 | h2
                  · subst h2; exact heof
                  · have := ih width (next_line width l (c + 1)) (next_col width (c + 1)) none
                      (fun k hk => by cases hk) t
                    rw [rl] at this
                    exact this h2

/-- On a signature-free pixel stretch the decoder never opens a run and
emits nothing. -/
lemma readLoop_signature_free (pixels : List Pixel) :
    ∀ (width l c : Nat), signature_free pixels = true →
      readLoop width pixels l c none = [] := by
  induction pixels with
  | nil => intro width l c _; rfl
  | cons p rest ih =>
    intro width l c h
    cases rest with
    | nil => rfl
    | cons next rest2 =>
      simp only [signature_free, Bool.and_eq_true, Option.isNone_iff_eq_none] at h
      rw [readLoop_none_step width l c none p next rest2 h.1]
      simp only [Option.map_none']
      exact ih width _ _ (by simpa [signature_free] using h.2)

/-- C9: a pixel sequence that is empty or in which no adjacent pixel pair
carries a valid signature decodes to the empty token stream (the `Ok`
payload of `read`); "no program found" is not an error at the codec
level. -/
theorem read_signature_free_empty (width : Nat) (pixels : List Pixel)
    (h : signature_free pixels = true) :
    read_pixels width pixels = [] :=
  readLoop_signature_free pixels width 0 0 h

/-- Closed instances of `read_signature_free_empty`: the empty image and a
signature-free two-pixel image. -/
theorem read_signature_free_empty_witness :
    read_pixels 7 ([] : List Pixel) = [] ∧
    read_pixels 2 [⟨10, 20, 30, 40⟩, ⟨11, 20, 30, 40⟩] = [] :=
  ⟨read_signature_free_empty 7 [] (by decide),
   read_signature_free_empty 2 [⟨10, 20, 30, 40⟩, ⟨11, 20, 30, 40⟩] (by decide)⟩

/-- C5 as written is false on this code: a pixel pair that carries a
signature never increments the open run; it flushes the run and (for a
count-bearing kind) reopens at count 0, so two consecutive identical
`Increment` signatures yield two `Increment(0)` tokens, not one
`Increment(1)` run. -/
theorem read_consecutive_signatures_two_tokens :
    (read_pixels 3 [⟨100, 100, 100, 100⟩, ⟨110, 110, 110, 110⟩, ⟨120, 120, 120, 120⟩]).map
        Token.kind = [TokenKind.increment 0, TokenKind.increment 0] ∧
    (read_pixels 3 [⟨100, 100, 100, 100⟩, ⟨110, 110, 110, 110⟩, ⟨120, 120, 120, 120⟩]).map
        Token.kind ≠ [TokenKind.increment 1] := by
  constructor
  · rfl
  · decide

/-- C5 (amended): a decoded run's repeat count counts the signature-LESS
pixel pairs that follow the signature pair that opened the run: a pair
with no signature increments the open run's count by one, while a pair
carrying a count-bearing signature first flushes any open run and then
opens a fresh run at count 0 (so consecutive identical signatures produce
one token per signature pair, and a run of `n` signature-free pairs after
one signature pair produces a single token with count `n`). -/
theorem read_run_semantics (width l c : Nat) (st : Option TokenKind)
    (p next : Pixel) (rest : List Pixel) :
    (pixel_distance p next = none →
      readLoop width (p :: next :: rest) l c st =
        readLoop width (next :: rest) (next_line width l (c + 1)) (next_col width (c + 1))
          (Option.map (fun k => increase_kind k 1) st)) ∧
    (∀ d kind, pixel_distance p next = some d → distance_to_kind d = some kind →
      is_stackable kind = true →
      count_of kind = 0 ∧
      readLoop width (p :: next :: rest) l c st =
        flush_stack st l (c + 1) ++
          readLoop width (next :: rest) (next_line width l (c + 1)) (next_col width (c + 1))
            (some kind)) := by
  constructor
  · exact readLoop_none_step width l c st p next rest
  · intro d kind h hk hs
    exact ⟨distance_to_kind_count_zero hk,
      readLoop_sig_stack_step width l c st p next rest d kind h hk hs⟩

/-- Closed instance of `read_run_semantics`: a signature-free pair
increments the open `Increment` run, and a fresh `Increment` signature
flushes and reopens at count 0. -/
theorem read_run_semantics_witness :
    readLoop 3 [⟨100, 100, 100, 100⟩, ⟨105, 100, 100, 100⟩] 0 0
        (some (TokenKind.increment 0)) =
      readLoop 3 [⟨105, 100, 100, 100⟩] (next_line 3 0 1) (next_col 3 1)
        (Option.map (fun k => increase_kind k 1) (some (TokenKind.increment 0))) ∧
    (count_of (TokenKind.increment 0) = 0 ∧
      readLoop 3 [⟨100, 100, 100, 100⟩, ⟨110, 110, 110, 110⟩] 0 0 none =
        flush_stack none 0 1 ++
          readLoop 3 [⟨110, 110, 110, 110⟩] (next_line 3 0 1) (next_col 3 1)
            (some (TokenKind.increment 0))) :=
  ⟨(read_run_semantics 3 0 0 (some (TokenKind.increment 0))
      ⟨100, 100, 100, 100⟩ ⟨105, 100, 100, 100⟩ []).1 (by decide),
   (read_run_semantics 3 0 0 none ⟨100, 100, 100, 100⟩ ⟨110, 110, 110, 110⟩ []).2
      10 (TokenKind.increment 0) (by decide) (by decide) (by decide)⟩

/-- C7: when a pixel pair carries the `EndOfProgram` distance 18 the
decoder flushes any open run, emits the `EndOfProgram` token and stops:
the tokens after the flush end with `EndOfProgram`, the pixels after the
pair are never examined (the result does not mention `rest`), and in any
full decoder output `EndOfProgram` can only be the last token. -/
theorem read_eof_terminal (width l c : Nat) (pixels : List Pixel) (st : Option TokenKind)
    (p next : Pixel) (rest : List Pixel) :
    (∀ t ∈ (read_pixels width pixels).dropLast, t.kind ≠ TokenKind.eof) ∧
    (pixel_distance p next = some 18 →
      readLoop width (p :: next :: rest) l c st =
        flush_stack st l (c + 1) ++ [⟨TokenKind.eof, ⟨l, c + 1⟩⟩]) :=
  ⟨readLoop_eof_not_in_dropLast pixels width 0 0 none (fun k hk => by cases hk),
   fun h => readLoop_sig_eof_step width l c st p next rest 18 h rfl⟩

/-- Closed instance of `read_eof_terminal`: a distance-18 pair stops the
scan; the trailing pixel is never examined. -/
theorem read_eof_terminal_witness :
    pixel_distance ⟨100, 100, 100, 100⟩ ⟨118, 118, 118, 118⟩ = some 18 ∧
    readLoop 5 [⟨100, 100, 100, 100⟩, ⟨118, 118, 118, 118⟩, ⟨128, 128, 128, 128⟩] 0 0 none =
      flush_stack none 0 1 ++ [⟨TokenKind.eof, ⟨0, 1⟩⟩] :=
  ⟨by decide,
   (read_eof_terminal 5 0 0 [] none ⟨100, 100, 100, 100⟩ ⟨118, 118, 118, 118⟩
      [⟨128, 128, 128, 128⟩]).2 (by decide)⟩

/-! ## The encoder's filler pass -/

lemma abs_diff_eq (x y : Nat) : abs_diff x y = (x - y) + (y - x) := by
  unfold abs_diff
  split_ifs <;> omega

/-- Perturbing the right pixel's first channel by one breaks any signature
the pair carried: the red delta moves off the common value while the other
three deltas keep it. -/
lemma perturb_breaks {p q : Pixel} {d : Nat} (h : pixel_distance p q = some d) :
    pixel_distance p (perturb q) = none := by
  obtain ⟨pr, pg, pb, pa⟩ := p
  obtain ⟨qr, qg, qb, qa⟩ := q
  rcases (pixel_distance_some_iff _ _ d).1 h with ⟨h1, h2, h3, h4, h5, h6⟩
  rw [pixel_distance_none_iff]
  simp only [perturb]
  split_ifs with hr <;>
  · simp only [abs_diff_eq] at *
    omega

/-- `fillerLoop` never shrinks the buffer, never moves the cursor
backwards, and never touches indices at or below `i + 1`. -/
lemma fillerLoop_frame (n : Nat) :
    ∀ (P : List Pixel) (i : Nat),
      (fillerLoop n P i).1.length = P.length ∧
      i ≤ (fillerLoop n P i).2 ∧
      ∀ m, m ≤ i + 1 → (fillerLoop n P i).1[m]? = P[m]? := by
  induction n with
  | zero => intro P i; exact ⟨rfl, Nat.le_refl i, fun m _ => rfl⟩
  | succ n ih =>
    intro P i
    by_cases hlen : P.length ≤ i + 1
    · simp [fillerLoop, hlen]
    · cases hp : P[i + 1]? with
      | none =>
        simp [fillerLoop, hlen, hp]
      | some pixel =>
        cases hq : P[i + 2]? with
        | none =>
          simp [fillerLoop, hlen, hp, hq]
        | some next =>
          have step : fillerLoop (n + 1) P i =
              fillerLoop n
                (if (pixel_distance pixel next).isSome then P.set (i + 2) (perturb next)
                 else P) (i + 1) := by
            simp [fillerLoop, hlen, hp, hq]
          rw [step]
          set P' := if (pixel_distance pixel next).isSome then P.set (i + 2) (perturb next)
            else P with hP'
          have hlen' : P'.length = P.length := by
            rw [hP']; split_ifs <;> simp
          have hget : ∀ m, m ≤ i + 1 → P'[m]? = P[m]? := by
            intro m hm
            rw [hP']
            split_ifs with hsig
            · exact List.getElem?_set_ne (by omega)
            · rfl
          obtain ⟨l1, l2, l3⟩ := ih P' (i + 1)
          refine ⟨l1.trans hlen', by omega, ?_⟩
          intro m hm
          rw [l3 m (by omega)]
          exact hget m hm

/-- With enough pixels left, `fillerLoop` advances the cursor by exactly
`n` and leaves every filler pair signature-free. -/
lemma fillerLoop_run (n : Nat) :
    ∀ (P : List Pixel) (i : Nat), i + n + 1 < P.length →
      (fillerLoop n P i).2 = i + n ∧
      (∀ j, i + 1 ≤ j → j < i + n + 1 →
        ∀ p q, (fillerLoop n P i).1[j]? = some p →
          (fillerLoop n P i).1[j + 1]? = some q →
          pixel_distance p q = none) := by
  induction n with
  | zero =>
    intro P i _
    exact ⟨rfl, fun j hj1 hj2 => by omega⟩
  | succ n ih =>
    intro P i hcap
    have h1 : i + 1 < P.length := by omega
    have h2 : i + 2 < P.length := by omega
    have hlen : ¬ P.length ≤ i + 1 := by omega
    have hp : P[i + 1]? = some P[i + 1] := List.getElem?_eq_getElem h1
    have hq : P[i + 2]? = some P[i + 2] := List.getElem?_eq_getElem h2
    have step : fillerLoop (n + 1) P i =
        fillerLoop n
          (if (pixel_distance P[i + 1] P[i + 2]).isSome then
            P.set (i + 2) (perturb P[i + 2])
           else P) (i + 1) := by
      simp [fillerLoop, hlen, hp, hq]
    rw [step]
    set P' := if (pixel_distance P[i + 1] P[i + 2]).isSome then
        P.set (i + 2) (perturb P[i + 2])
      else P with hP'
    have hlen' : P'.length = P.length := by
      rw [hP']; split_ifs <;> simp
    have hpair : ∀ p q, P'[i + 1]? = some p → P'[i + 2]? = some q →
        pixel_distance p q = none := by
      intro p q hp' hq'
      rw [hP'] at hp' hq'
      cases hsig : pixel_distance P[i + 1] P[i + 2] with
      | none =>
        rw [hsig] at hp' hq'
        simp only [Option.isSome_none, Bool.false_eq_true, if_false] at hp' hq'
        rw [hp] at hp'
        rw [hq] at hq'
        cases hp'; cases hq'
        exact hsig
      | some d =>
        rw [hsig] at hp' hq'
        simp only [Option.isSome_some, if_true] at hp' hq'
        rw [List.getElem?_set_ne (by omega), hp] at hp'
        rw [List.getElem?_set_eq_of_lt _ (by simpa using h2)] at hq'
        cases hp'; cases hq'
        exact perturb_breaks hsig
    obtain ⟨r1, r2⟩ := ih P' (i + 1) (by omega)
    obtain ⟨f1, _, f3⟩ := fillerLoop_frame n P' (i + 1)
    refine ⟨by omega, ?_⟩
    intro j hj1 hj2 p q hpj hqj
    by_cases hji : j = i + 1
    · subst hji
      rw [f3 (i + 1) (by omega)] at hpj
      rw [f3 (i + 2) (by omega)] at hqj
      exact hpair p q hpj hqj
    · exact r2 j (by omega) (by omega) p q hpj hqj

/-! ## The encoder's main loop -/

/-- One unfolding of `writeLoop` with both cursor checks satisfied,
expressed through `is_stackable`/`count_of` to avoid a nine-way case
split at every use. -/
lemma writeLoop_cons (token : Token) (rest : List Token) (P : List Pixel) (i : Nat)
    (h1 : i < P.length) (h2 : i + 1 < P.length) :
    writeLoop (token :: rest) P i =
      if is_stackable token.kind then
        writeLoop rest
          (fillerLoop (count_of token.kind)
            (P.set (i + 1) (encoded_pixel (kind_to_distance token.kind) (P.get ⟨i, h1⟩))) i).1
          ((fillerLoop (count_of token.kind)
            (P.set (i + 1) (encoded_pixel (kind_to_distance token.kind) (P.get ⟨i, h1⟩))) i).2 + 1)
      else
        writeLoop rest
          (P.set (i + 1) (encoded_pixel (kind_to_distance token.kind) (P.get ⟨i, h1⟩)))
          (i + 1) := by
  obtain ⟨kind, pos⟩ := token
  cases kind <;> simp [writeLoop, h1, h2, is_stackable, count_of]

/-- `writeLoop` stops without touching the buffer when fewer than two
pixels remain past the cursor. -/
lemma writeLoop_stop (token : Token) (rest : List Token) (P : List Pixel) (i : Nat)
    (h : ¬ i + 1 < P.length) :
    writeLoop (token :: rest) P i = P := by
  by_cases h1 : i < P.length
  · obtain ⟨kind, pos⟩ := token
    cases kind <;> simp [writeLoop, h1, h]
  · obtain ⟨kind, pos⟩ := token
    cases kind <;> simp [writeLoop, h1]

/-- `writeLoop` preserves the buffer length and every index at or below
the cursor: all mutations go to indices `≥ i + 1`. -/
lemma writeLoop_frame (T : List Token) :
    ∀ (P : List Pixel) (i : Nat),
      (writeLoop T P i).length = P.length ∧
      ∀ j, j ≤ i → (writeLoop T P i)[j]? = P[j]? := by
  induction T with
  | nil => intro P i; exact ⟨rfl, fun j _ => rfl⟩
  | cons token rest ih =>
    intro P i
    by_cases h2 : i + 1 < P.length
    · have h1 : i < P.length := by omega
      rw [writeLoop_cons token rest P i h1 h2]
      set P1 := P.set (i + 1) (encoded_pixel (kind_to_distance token.kind) (P.get ⟨i, h1⟩))
        with hP1
      have hlen1 : P1.length = P.length := by rw [hP1]; simp
      have hget1 : ∀ j, j ≤ i → P1[j]? = P[j]? := by
        intro j hj
        rw [hP1]
        exact List.getElem?_set_ne (by omega)
      split_ifs with hs
      · obtain ⟨f1, f2, f3⟩ := fillerLoop_frame (count_of token.kind) P1 i
        obtain ⟨w1, w2⟩ := ih (fillerLoop (count_of token.kind) P1 i).1
          ((fillerLoop (count_of token.kind) P1 i).2 + 1)
        refine ⟨by rw [w1, f1, hlen1], ?_⟩
        intro j hj
        rw [w2 j (by omega), f3 j (by omega), hget1 j hj]
      · obtain ⟨w1, w2⟩ := ih P1 (i + 1)
        refine ⟨by rw [w1, hlen1], ?_⟩
        intro j hj
        rw [w2 j (by omega), hget1 j hj]
    · rw [writeLoop_stop token rest P i h2]
      exact ⟨rfl, fun j _ => rfl⟩

/-- C10: the encoder never modifies the first pixel — every mutation it
performs targets an index `≥ 1` (signature writes go to `i + 1`, filler
perturbations to `i + 2`), so pixel 0 of the output buffer equals pixel 0
of the source image (and the buffer keeps its length). -/
theorem write_preserves_pixel_zero (tokens : List Token) (P : List Pixel) :
    (write_pixels tokens P)[0]? = P[0]? ∧ (write_pixels tokens P).length = P.length :=
  ⟨(writeLoop_frame tokens P 0).2 0 (Nat.le_refl 0), (writeLoop_frame tokens P 0).1⟩

/-- Helper for the filler invariant: in the final output buffer no pair
among a count-bearing token's filler pixels carries a signature. -/
lemma writeLoop_filler_pairs_none (token : Token) (rest : List Token) (P : List Pixel)
    (i n j : Nat) (hk : is_stackable token.kind = true) (hn : count_of token.kind = n)
    (hcap : i + n + 1 < P.length) (hj1 : i + 1 ≤ j) (hj2 : j ≤ i + n)
    (p q : Pixel)
    (hp : (writeLoop (token :: rest) P i)[j]? = some p)
    (hq : (writeLoop (token :: rest) P i)[j + 1]? = some q) :
    pixel_distance p q = none := by
  have h1 : i < P.length := by omega
  have h2 : i + 1 < P.length := by omega
  rw [writeLoop_cons token rest P i h1 h2, hn, if_pos hk] at hp hq
  set P1 := P.set (i + 1) (encoded_pixel (kind_to_distance token.kind) (P.get ⟨i, h1⟩))
    with hP1
  have hlen1 : P1.length = P.length := by rw [hP1]; simp
  obtain ⟨r1, r2⟩ := fillerLoop_run n P1 i (by omega)
  obtain ⟨w1, w2⟩ := writeLoop_frame rest (fillerLoop n P1 i).1 ((fillerLoop n P1 i).2 + 1)
  rw [w2 j (by omega)] at hp
  rw [w2 (j + 1) (by omega)] at hq
  exact r2 j hj1 (by omega) p q hp hq

/-- C6: after the encoder handles a count-bearing token with repeat count
`n > 0` at cursor `i` (with enough pixels left for all `n` filler steps),
no adjacent pair among the filler pixels carries a valid signature in the
final output buffer: `pixel_distance` is `None` on every pair `(j, j+1)`
with `i + 1 ≤ j ≤ i + n`. -/
theorem write_filler_no_signature (token : Token) (rest : List Token) (P : List Pixel)
    (i n j : Nat) (hk : is_stackable token.kind = true) (hn : count_of token.kind = n)
    (hcap : i + n + 1 < P.length) (hj1 : i + 1 ≤ j) (hj2 : j ≤ i + n)
    (p q : Pixel)
    (hp : (writeLoop (token :: rest) P i)[j]? = some p)
    (hq : (writeLoop (token :: rest) P i)[j + 1]? = some q) :
    pixel_distance p q = none :=
  writeLoop_filler_pairs_none token rest P i n j hk hn hcap hj1 hj2 p q hp hq

/-- Closed instance of `write_filler_no_signature`: encoding
`Increment(2)` into five uniform pixels; the pair of filler pixels 1 and 2
of the output is signature-free. -/
theorem write_filler_no_signature_witness :
    pixel_distance ⟨110, 110, 110, 245⟩ ⟨101, 100, 100, 255⟩ = none :=
  write_filler_no_signature ⟨TokenKind.increment 2, ⟨0, 0⟩⟩ []
    [⟨100, 100, 100, 255⟩, ⟨100, 100, 100, 255⟩, ⟨100, 100, 100, 255⟩,
     ⟨100, 100, 100, 255⟩, ⟨100, 100, 100, 255⟩]
    0 2 1 (by decide) (by decide) (by decide) (by decide) (by decide)
    ⟨110, 110, 110, 245⟩ ⟨101, 100, 100, 255⟩ (by decide) (by decide)

/-! ## Round trip: encode then decode -/

lemma count_of_not_stackable {k : TokenKind} (h : is_stackable k = false) :
    count_of k = 0 := by
  cases k <;> simp_all [is_stackable, count_of]

lemma strip_not_stackable {k : TokenKind} (h : is_stackable k = false) :
    strip_count k = k := by
  cases k <;> simp_all [is_stackable, strip_count]

lemma is_stackable_strip (k : TokenKind) :
    is_stackable (strip_count k) = is_stackable k := by
  cases k <;> rfl

lemma list_span_cons (t : Token) (r : List Token) :
    list_span (t :: r) = count_of t.kind + 1 + list_span r := by
  simp [list_span, token_width]

lemma list_span_ne_nil {r : List Token} (h : r ≠ []) : 1 ≤ list_span r := by
  cases r with
  | nil => exact absurd rfl h
  | cons t ts => rw [list_span_cons]; omega

lemma eof_terminated_ne_nil {T : List Token} (h : eof_terminated T = true) : T ≠ [] := by
  cases T with
  | nil => simp [eof_terminated] at h
  | cons t ts => exact List.cons_ne_nil t ts

lemma eof_terminated_single {t : Token} (h : eof_terminated [t] = true) :
    t.kind = TokenKind.eof := by
  simpa [eof_terminated] using h

lemma eof_terminated_cons {token r : Token} {rs : List Token}
    (h : eof_terminated (token :: r :: rs) = true) :
    token.kind ≠ TokenKind.eof ∧ eof_terminated (r :: rs) = true := by
  simpa [eof_terminated] using h

/-- Scanning a stretch of `n` signature-free pairs only increments the
open run's count `n` times. -/
lemma none_run_decode (n : Nat) :
    ∀ (Q : List Pixel) (j width l c : Nat) (k : TokenKind),
      j + n + 1 < Q.length →
      (∀ m, j ≤ m → m < j + n →
        ∀ p q, Q[m]? = some p → Q[m + 1]? = some q → pixel_distance p q = none) →
      ∃ l2 c2, readLoop width (Q.drop j) l c (some k) =
        readLoop width (Q.drop (j + n)) l2 c2 (some (increase_kind k n)) := by
  induction n with
  | zero =>
    intro Q j width l c k _ _
    exact ⟨l, c, by rw [increase_zero, Nat.add_zero]⟩
  | succ n ih =>
    intro Q j width l c k hcap hnone
    have hj : j < Q.length := by omega
    have hj1 : j + 1 < Q.length := by omega
    have hd : Q.drop j = Q[j] :: Q.drop (j + 1) := List.drop_eq_getElem_cons hj
    have hd1 : Q.drop (j + 1) = Q[j + 1] :: Q.drop (j + 2) := List.drop_eq_getElem_cons hj1
    have hpair : pixel_distance Q[j] Q[j + 1] = none :=
      hnone j (Nat.le_refl j) (by omega) _ _
        (List.getElem?_eq_getElem hj) (List.getElem?_eq_getElem hj1)
    rw [hd, hd1, readLoop_none_step _ _ _ _ _ _ _ hpair, ← hd1]
    simp only [Option.map_some']
    obtain ⟨l2, c2, he⟩ := ih Q (j + 1) width
      (next_line width l (c + 1)) (next_col width (c + 1)) (increase_kind k 1)
      (by omega) (fun m hm1 hm2 => hnone m (by omega) (by omega))
    rw [he, increase_increase]
    have h1n : 1 + n = n + 1 := by omega
    have hjn : j + 1 + n = j + (n + 1) := by omega
    rw [h1n, hjn]
    exact ⟨l2, c2, rfl⟩

lemma writeLoop_cons_stack (token : Token) (rest : List Token) (P : List Pixel) (i : Nat)
    (h1 : i < P.length) (h2 : i + 1 < P.length) (hs : is_stackable token.kind = true) :
    writeLoop (token :: rest) P i =
      writeLoop rest
        (fillerLoop (count_of token.kind)
          (P.set (i + 1) (encoded_pixel (kind_to_distance token.kind) (P.get ⟨i, h1⟩))) i).1
        ((fillerLoop (count_of token.kind)
          (P.set (i + 1) (encoded_pixel (kind_to_distance token.kind) (P.get ⟨i, h1⟩))) i).2 + 1) := by
  rw [writeLoop_cons token rest P i h1 h2, if_pos hs]

lemma writeLoop_cons_struct (token : Token) (rest : List Token) (P : List Pixel) (i : Nat)
    (h1 : i < P.length) (h2 : i + 1 < P.length) (hs : is_stackable token.kind = false) :
    writeLoop (token :: rest) P i =
      writeLoop rest
        (P.set (i + 1) (encoded_pixel (kind_to_distance token.kind) (P.get ⟨i, h1⟩)))
        (i + 1) := by
  rw [writeLoop_cons token rest P i h1 h2, hs]
  simp

/-- The encoder always leaves the token's signature pair in place: pixel
`i` is untouched and pixel `i + 1` holds the encoded signature pixel. -/
lemma write_head_pair (token : Token) (rest : List Token) (P : List Pixel) (i : Nat)
    (h1 : i < P.length) (h2 : i + 1 < P.length) :
    (writeLoop (token :: rest) P i)[i]? = some (P.get ⟨i, h1⟩) ∧
    (writeLoop (token :: rest) P i)[i + 1]? =
      some (encoded_pixel (kind_to_distance token.kind) (P.get ⟨i, h1⟩)) := by
  by_cases hs : is_stackable token.kind = true
  · rw [writeLoop_cons_stack token rest P i h1 h2 hs]
    obtain ⟨flen, fle, fget⟩ := fillerLoop_frame (count_of token.kind)
      (P.set (i + 1) (encoded_pixel (kind_to_distance token.kind) (P.get ⟨i, h1⟩))) i
    obtain ⟨wlen, wget⟩ := writeLoop_frame rest
      (fillerLoop (count_of token.kind)
        (P.set (i + 1) (encoded_pixel (kind_to_distance token.kind) (P.get ⟨i, h1⟩))) i).1
      ((fillerLoop (count_of token.kind)
        (P.set (i + 1) (encoded_pixel (kind_to_distance token.kind) (P.get ⟨i, h1⟩))) i).2 + 1)
    constructor
    · rw [wget i (by omega), fget i (by omega),
        List.getElem?_set_ne (by omega), List.getElem?_eq_getElem h1, List.get_eq_getElem]
    · rw [wget (i + 1) (by omega), fget (i + 1) (by omega),
        List.getElem?_set_eq_of_lt _ (by simpa using h2)]
  · have hsf : is_stackable token.kind = false := by simpa using hs
    rw [writeLoop_cons_struct token rest P i h1 h2 hsf]
    obtain ⟨wlen, wget⟩ := writeLoop_frame rest
      (P.set (i + 1) (encoded_pixel (kind_to_distance token.kind) (P.get ⟨i, h1⟩))) (i + 1)
    constructor
    · rw [wget i (by omega), List.getElem?_set_ne (by omega), List.getElem?_eq_getElem h1,
        List.get_eq_getElem]
    · rw [wget (i + 1) (by omega), List.getElem?_set_eq_of_lt _ (by simpa using h2)]

/-- Main alignment lemma: encoding an EOF-terminated token stream at
cursor `i` and then decoding from index `i` with any open-run state yields
the flushed state followed by exactly the input kinds (counts included). -/
lemma write_read_aligned (T : List Token) :
    ∀ (P : List Pixel) (i width l c : Nat) (st : Option TokenKind),
      eof_terminated T = true →
      i + list_span T + 1 ≤ P.length →
      (readLoop width ((writeLoop T P i).drop i) l c st).map Token.kind =
        flush_kinds st ++ T.map Token.kind := by
  induction T with
  | nil =>
    intro P i width l c st hterm _
    simp [eof_terminated] at hterm
  | cons token rest ih =>
    intro P i width l c st hterm hcap
    rw [list_span_cons] at hcap
    have h1 : i < P.length := by omega
    have h2 : i + 1 < P.length := by omega
    have hband := kind_to_distance_band token.kind
    obtain ⟨hQi, hQi1⟩ := write_head_pair token rest P i h1 h2
    have hQlen : (writeLoop (token :: rest) P i).length = P.length :=
      (writeLoop_frame (token :: rest) P i).1
    have hiQ : i < (writeLoop (token :: rest) P i).length := by omega
    have hi1Q : i + 1 < (writeLoop (token :: rest) P i).length := by omega
    have e0 : (writeLoop (token :: rest) P i)[i] = P.get ⟨i, h1⟩ :=
      Option.some.inj ((List.getElem?_eq_getElem hiQ).symm.trans hQi)
    have e1 : (writeLoop (token :: rest) P i)[i + 1] =
        encoded_pixel (kind_to_distance token.kind) (P.get ⟨i, h1⟩) :=
      Option.some.inj ((List.getElem?_eq_getElem hi1Q).symm.trans hQi1)
    have hsig : pixel_distance (writeLoop (token :: rest) P i)[i]
        (writeLoop (token :: rest) P i)[i + 1] = some (kind_to_distance token.kind) := by
      rw [e0, e1]
      exact pixel_distance_encoded _ _ hband.1 hband.2
    have hdk := distance_to_kind_strip token.kind
    have hdrop0 : (writeLoop (token :: rest) P i).drop i =
        (writeLoop (token :: rest) P i)[i] :: (writeLoop (token :: rest) P i).drop (i + 1) :=
      List.drop_eq_getElem_cons hiQ
    have hdrop1 : (writeLoop (token :: rest) P i).drop (i + 1) =
        (writeLoop (token :: rest) P i)[i + 1] ::
          (writeLoop (token :: rest) P i).drop (i + 2) :=
      List.drop_eq_getElem_cons hi1Q
    cases rest with
    | nil =>
      have heof : token.kind = TokenKind.eof := eof_terminated_single hterm
      have hdk2 : distance_to_kind (kind_to_distance token.kind) = some TokenKind.eof := by
        rw [hdk, heof]
        rfl
      rw [hdrop0, hdrop1,
        readLoop_sig_eof_step width l c st _ _ _ (kind_to_distance token.kind) hsig hdk2]
      simp [flush_stack_kinds, heof]
    | cons r rs =>
      obtain ⟨hne, hterm2⟩ := eof_terminated_cons hterm
      have hspan2 : 1 ≤ list_span (r :: rs) := list_span_ne_nil (List.cons_ne_nil r rs)
      by_cases hs : is_stackable token.kind = true
      · have hQpairs : ∀ m, i + 1 ≤ m → m < i + 1 + count_of token.kind →
            ∀ p q, (writeLoop (token :: r :: rs) P i)[m]? = some p →
              (writeLoop (token :: r :: rs) P i)[m + 1]? = some q →
              pixel_distance p q = none := by
          intro m hm1 hm2 p q hp hq
          exact writeLoop_filler_pairs_none token (r :: rs) P i (count_of token.kind) m
            hs rfl (by omega) hm1 (by omega) p q hp hq
        rw [hdrop0, hdrop1,
          readLoop_sig_stack_step width l c st _ _ _ (kind_to_distance token.kind)
            (strip_count token.kind) hsig hdk (by rw [is_stackable_strip]; exact hs),
          ← hdrop1]
        obtain ⟨l2, c2, hrun⟩ := none_run_decode (count_of token.kind)
          (writeLoop (token :: r :: rs) P i) (i + 1) width
          (next_line width l (c + 1)) (next_col width (c + 1)) (strip_count token.kind)
          (by omega) hQpairs
        rw [hrun, increase_strip token.kind hs]
        have hidx : i + 1 + count_of token.kind = i + count_of token.kind + 1 := by omega
        rw [hidx]
        rw [writeLoop_cons_stack token (r :: rs) P i h1 h2 hs]
        have hcapf : i + count_of token.kind + 1 <
            (P.set (i + 1)
              (encoded_pixel (kind_to_distance token.kind) (P.get ⟨i, h1⟩))).length := by
          rw [List.length_set]; omega
        obtain ⟨fidx, _⟩ := fillerLoop_run (count_of token.kind)
          (P.set (i + 1) (encoded_pixel (kind_to_distance token.kind) (P.get ⟨i, h1⟩))) i hcapf
        rw [fidx]
        rw [List.map_append, flush_stack_kinds]
        rw [ih (fillerLoop (count_of token.kind)
              (P.set (i + 1) (encoded_pixel (kind_to_distance token.kind) (P.get ⟨i, h1⟩))) i).1
            (i + count_of token.kind + 1) width l2 c2 (some token.kind) hterm2 ?_]
        · simp [flush_kinds]
        · rw [(fillerLoop_frame (count_of token.kind)
              (P.set (i + 1) (encoded_pixel (kind_to_distance token.kind) (P.get ⟨i, h1⟩))) i).1,
            List.length_set]
          omega
      · have hsf : is_stackable token.kind = false := by simpa using hs
        have hc0 : count_of token.kind = 0 := count_of_not_stackable hsf
        rw [hdrop0, hdrop1,
          readLoop_sig_struct_step width l c st _ _ _ (kind_to_distance token.kind)
            (strip_count token.kind) hsig hdk
            (by rw [is_stackable_strip]; exact hsf)
            (by rw [strip_not_stackable hsf]; exact hne),
          ← hdrop1]
        rw [writeLoop_cons_struct token (r :: rs) P i h1 h2 hsf]
        rw [List.map_append, flush_stack_kinds, List.map_cons]
        rw [ih (P.set (i + 1) (encoded_pixel (kind_to_distance token.kind) (P.get ⟨i, h1⟩)))
            (i + 1) width (next_line width l (c + 1)) (next_col width (c + 1)) none hterm2
            (by rw [List.length_set]; omega)]
        simp [flush_kinds, strip_not_stackable hsf]

/-- C1 as written is false on this code: encoding the one-token stream
`[Increment(0)]` (within capacity) into a signature-free uniform 3-pixel
image and decoding does not give back the stream.  The signature pixel
written at index 1 sits at distance 10 from the untouched pixel 2 as well,
so the decoder sees a second accidental signature after the stream's
pixels and emits `[Increment(0), Increment(0)]`. -/
theorem round_trip_fails_without_eof :
    signature_free
      [⟨100, 100, 100, 255⟩, ⟨100, 100, 100, 255⟩, ⟨100, 100, 100, 255⟩] = true ∧
    list_span [⟨TokenKind.increment 0, ⟨0, 0⟩⟩] + 1 ≤ 3 ∧
    (read_pixels 3 (write_pixels [⟨TokenKind.increment 0, ⟨0, 0⟩⟩]
        [⟨100, 100, 100, 255⟩, ⟨100, 100, 100, 255⟩, ⟨100, 100, 100, 255⟩])).map Token.kind =
      [TokenKind.increment 0, TokenKind.increment 0] ∧
    (read_pixels 3 (write_pixels [⟨TokenKind.increment 0, ⟨0, 0⟩⟩]
        [⟨100, 100, 100, 255⟩, ⟨100, 100, 100, 255⟩, ⟨100, 100, 100, 255⟩])).map Token.kind ≠
      [⟨TokenKind.increment 0, ⟨0, 0⟩⟩].map Token.kind := by
  refine ⟨rfl, by decide, rfl, ?_⟩
  decide

/-- C1 (amended): for every token stream `T` whose LAST token is
`EndOfProgram` and that contains no other `EndOfProgram`, every base image
with no pre-existing accidental signatures, and capacity
`list_span T + 1 ≤ |P|` (one pixel per token plus one per repeat count,
plus the pixel each signature is measured from), decoding the encoded
buffer yields exactly the kinds of `T` — same kinds, same repeat counts,
same order (positions aside).  The signature-free hypothesis on the base
image is the claim's own; the proof shows the decoder in fact never
examines an uncontrolled pair before stopping at `EndOfProgram`. -/
theorem round_trip_eof (T : List Token) (P : List Pixel) (width : Nat)
    (_hsigfree : signature_free P = true)
    (hterm : eof_terminated T = true)
    (hcap : list_span T + 1 ≤ P.length) :
    (read_pixels width (write_pixels T P)).map Token.kind = T.map Token.kind := by
  have h := write_read_aligned T P 0 width 0 0 none hterm (by omega)
  simpa [read_pixels, write_pixels, flush_kinds] using h

/-- Closed instance of `round_trip_eof`: `[Increment(1), EOF]` on a
uniform five-pixel image round-trips. -/
theorem round_trip_eof_witness :
    (read_pixels 5 (write_pixels
        [⟨TokenKind.increment 1, ⟨0, 0⟩⟩, ⟨TokenKind.eof, ⟨0, 4⟩⟩]
        [⟨100, 100, 100, 255⟩, ⟨100, 100, 100, 255⟩, ⟨100, 100, 100, 255⟩,
         ⟨100, 100, 100, 255⟩, ⟨100, 100, 100, 255⟩])).map Token.kind =
      [TokenKind.increment 1, TokenKind.eof] :=
  round_trip_eof
    [⟨TokenKind.increment 1, ⟨0, 0⟩⟩, ⟨TokenKind.eof, ⟨0, 4⟩⟩]
    [⟨100, 100, 100, 255⟩, ⟨100, 100, 100, 255⟩, ⟨100, 100, 100, 255⟩,
     ⟨100, 100, 100, 255⟩, ⟨100, 100, 100, 255⟩] 5 (by decide) (by decide) (by decide)
